import Mathlib

/-!
Shallow embedding of libredstone's NBT codec (`src/nbt.c`) and proofs of the
specification claims about it.

Buffers are lists of byte values (`Bytes`).  The C parser's cursor — a pointer
plus a remaining length — is modelled as the list of remaining bytes; a parse
function returns `none` where the C returns `NULL`, and on success returns the
produced value together with the remaining bytes.  The subtype bound on the
remaining bytes records that a parse never grows the buffer; it is what makes
the recursion of `_rs_nbt_parse_tag` well-founded.

The generic linked list (`list.c`), endian swaps (`endian.h`) and string
duplication (`memory` helpers) are not part of the visible source; those
primitives are modelled from the specification, as marked on each definition.
-/

abbrev Bytes := List Nat

/-- Reinterpretation of an integer at signed width `w` (two's complement):
truncate to the low `w` bits and sign-extend.  This is the value-level meaning
of C's narrowing stores (`int8_t`/`int16_t`/... fields) and of reinterpreting
an unsigned value as the signed type of the same width. -/
def truncSigned (w : Nat) (v : Int) : Int :=
  let m := v % ((2 : Int) ^ w)
  if m < (2 : Int) ^ (w - 1) then m else m - (2 : Int) ^ w

/-- Content of a C string built by `memcpy` plus a NUL terminator: every
observation (`strcmp`, `rs_strdup`) sees the bytes up to the first NUL. -/
def cstr (s : Bytes) : Bytes := s.takeWhile (fun b => b != 0)

/-- Modelled from the spec: `rs_strdup` (memory helpers, not under `src/`)
returns an owned copy of a C string — a NULL pointer stays NULL (`none`). -/
def rs_strdup : Option Bytes → Option Bytes
  | none => none
  | some s => some (cstr s)

/-- The tag tree (`struct _RSTag`): a discriminated union of the implemented
kinds.  Integer payloads are the stored fixed-width signed values; a String
payload is `none` exactly when the C `string` field is NULL (zero-initialized
or set from a NULL pointer); a Compound is the ordered list of
`RSTagCompoundNode` entries. -/
inductive RSTag where
  | tagByte (v : Int)
  | tagShort (v : Int)
  | tagInt (v : Int)
  | tagLong (v : Int)
  | tagString (s : Option Bytes)
  | tagCompound (entries : List (Bytes × RSTag))

/-- `rs_tag_set_integer`: stores the 64-bit argument into the tag's
fixed-width signed field (C narrowing conversion = two's-complement
truncation).  On a non-integer tag the C asserts; the model returns the tag
unchanged on that (fatal) path. -/
def rs_tag_set_integer (self : RSTag) (val : Int) : RSTag :=
  match self with
  | .tagByte _ => .tagByte (truncSigned 8 val)
  | .tagShort _ => .tagShort (truncSigned 16 val)
  | .tagInt _ => .tagInt (truncSigned 32 val)
  | .tagLong _ => .tagLong (truncSigned 64 val)
  | t => t

/-- `rs_tag_get_integer`: returns the stored fixed-width value sign-extended
to 64 bits (value-preserving).  `none` models the fatal assertion on a
non-integer tag. -/
def rs_tag_get_integer (self : RSTag) : Option Int :=
  match self with
  | .tagByte v => some v
  | .tagShort v => some v
  | .tagInt v => some v
  | .tagLong v => some v
  | _ => none

/-- `rs_tag_set_string`: replaces the string payload with an owned copy of the
argument (NULL argument leaves a NULL field, see `rs_strdup`). -/
def rs_tag_set_string (self : RSTag) (str : Option Bytes) : RSTag :=
  match self with
  | .tagString _ => .tagString (rs_strdup str)
  | t => t

/-- `rs_tag_compound_get`: linear scan, first entry whose key compares equal
(`strcmp == 0`). -/
def rs_tag_compound_get : List (Bytes × RSTag) → Bytes → Option RSTag
  | [], _ => none
  | node :: rest, key =>
    if node.1 = key then some node.2 else rs_tag_compound_get rest key

/-- `rs_tag_compound_delete`: scan for the first entry whose key matches and
remove that cell; if none matches the list is unchanged.  (`rs_list_remove`
from `list.c` is not under `src/`; modelled from the spec: removes the first
matching entry.) -/
def rs_tag_compound_delete : List (Bytes × RSTag) → Bytes → List (Bytes × RSTag)
  | [], _ => []
  | node :: rest, key =>
    if node.1 = key then rest else node :: rs_tag_compound_delete rest key

/-- `rs_tag_compound_set`: delete any existing entry with this key, then push
the new node.  Modelled from the spec: `rs_list_push` (`list.c`, not under
`src/`) appends the new entry at the end of the ordered sequence, and
iteration follows list order (spec §4.2: "appends a new entry at the end of
the ordered sequence", insertion order preserved for iteration). -/
def rs_tag_compound_set (es : List (Bytes × RSTag)) (key : Bytes) (value : RSTag) :
    List (Bytes × RSTag) :=
  rs_tag_compound_delete es key ++ [(key, value)]

/-- Modelled from the spec: `rs_endian_uint16` (`endian.h`, not under `src/`):
a 2-byte big-endian read. -/
def rs_endian_uint16 (b0 b1 : Nat) : Nat := b0 * 256 + b1

/-- Modelled from the spec: 4-byte big-endian read (`rs_endian_uint32`). -/
def rs_endian_uint32 (b0 b1 b2 b3 : Nat) : Nat :=
  ((b0 * 256 + b1) * 256 + b2) * 256 + b3

/-- Modelled from the spec: 8-byte big-endian read (`rs_endian_uint64`). -/
def rs_endian_uint64 (b0 b1 b2 b3 b4 b5 b6 b7 : Nat) : Nat :=
  ((((((b0 * 256 + b1) * 256 + b2) * 256 + b3) * 256 + b4) * 256 + b5) * 256
    + b6) * 256 + b7

/-- `_rs_nbt_parse_string`: fail if fewer than 2 bytes remain; read a 2-byte
big-endian length; fail if the declared payload does not fit
(`*lenp < 2 + strlen`); otherwise copy the payload (NUL-terminated, so the
observed content is `cstr` of it) and advance the cursor past prefix and
payload. -/
def rs_nbt_parse_string :
    (d : Bytes) → Option (Bytes × {r : Bytes // r.length + 2 ≤ d.length})
  | b0 :: b1 :: rest =>
    let n := rs_endian_uint16 b0 b1
    if rest.length < n then none
    else
      some (cstr (rest.take n),
        ⟨rest.drop n, by simp only [List.length_cons, List.length_drop]; omega⟩)
  | [] => none
  | [_] => none

mutual

/-- `_rs_nbt_parse_tag`: dispatch on the type byte.  Byte/Short/Int/Long read
a fixed-width big-endian value (failing if too few bytes remain) and store it
via `rs_tag_set_integer`; String reads a length-prefixed string and stores it
via `rs_tag_set_string` — note the source does not check the string parse for
failure and returns the tag either way; Compound runs the entry loop; every
other type byte (including End) falls through the switch to the failure
return. -/
def rs_nbt_parse_tag (type : Nat) (d : Bytes) :
    Option (RSTag × {r : Bytes // r.length ≤ d.length}) :=
  if type = 1 then
    match d with
    | b :: rest =>
      some (rs_tag_set_integer (.tagByte 0) (truncSigned 8 (b : Int)),
        ⟨rest, by simp⟩)
    | [] => none
  else if type = 2 then
    match d with
    | b0 :: b1 :: rest =>
      some (rs_tag_set_integer (.tagShort 0)
          (truncSigned 16 ((rs_endian_uint16 b0 b1 : Nat) : Int)),
        ⟨rest, by simp only [List.length_cons]; omega⟩)
    | _ => none
  else if type = 3 then
    match d with
    | b0 :: b1 :: b2 :: b3 :: rest =>
      some (rs_tag_set_integer (.tagInt 0)
          (truncSigned 32 ((rs_endian_uint32 b0 b1 b2 b3 : Nat) : Int)),
        ⟨rest, by simp only [List.length_cons]; omega⟩)
    | _ => none
  else if type = 4 then
    match d with
    | b0 :: b1 :: b2 :: b3 :: b4 :: b5 :: b6 :: b7 :: rest =>
      some (rs_tag_set_integer (.tagLong 0)
          (truncSigned 64 ((rs_endian_uint64 b0 b1 b2 b3 b4 b5 b6 b7 : Nat) : Int)),
        ⟨rest, by simp only [List.length_cons]; omega⟩)
    | _ => none
  else if type = 8 then
    match rs_nbt_parse_string d with
    | none => some (rs_tag_set_string (.tagString none) none, ⟨d, le_refl _⟩)
    | some q =>
      some (rs_tag_set_string (.tagString none) (some q.1),
        ⟨q.2.1, by have := q.2.2; omega⟩)
  else if type = 10 then
    rs_nbt_parse_compound [] d
  else
    none
termination_by (d.length, 1)

/-- The `RS_TAG_COMPOUND` loop of `_rs_nbt_parse_tag`: while bytes remain,
read a type byte; an End byte (0) returns the compound built so far;
otherwise read a key string and recursively a tag of that type and `set` the
pair into the compound.  Exhausting the buffer, a failed key parse, or a
failed sub-tag parse all fall through to the failure return (`none`). -/
def rs_nbt_parse_compound (acc : List (Bytes × RSTag)) (d : Bytes) :
    Option (RSTag × {r : Bytes // r.length ≤ d.length}) :=
  match d with
  | [] => none
  | subtype :: rest =>
    if subtype = 0 then
      some (.tagCompound acc, ⟨rest, by simp⟩)
    else
      (rs_nbt_parse_string rest).bind fun q =>
        (rs_nbt_parse_tag subtype q.2.1).bind fun p =>
          (rs_nbt_parse_compound (rs_tag_compound_set acc q.1 p.1) p.2.1).map
            fun w =>
              (w.1, ⟨w.2.1, by
                have h1 := q.2.2
                have h2 := p.2.2
                have h3 := w.2.2
                simp only [List.length_cons]
                omega⟩)
termination_by (d.length, 0)
decreasing_by
  · apply Prod.Lex.left
    have h1 := q.2.2
    simp only [List.length_cons]
    omega
  · apply Prod.Lex.left
    have h1 := q.2.2
    have h2 := p.2.2
    simp only [List.length_cons]
    omega

end

/-- The parsed document (`struct _RSNBT`): root type byte, root name, root
tag. -/
structure RSNBT where
  root_type : Nat
  root_name : Bytes
  root : RSTag

/-- `rs_nbt_parse`, after the decompression collaborator has produced the
`expanded` buffer (decompression is out of scope per spec §1): require at
least 4 bytes; read the root type byte; read the root name (failure fails the
parse); parse the root tag (failure fails the parse); finally require exactly
zero bytes left (`left != 0` fails the parse). -/
def rs_nbt_parse (expanded : Bytes) : Option RSNBT :=
  if expanded.length < 4 then none
  else
    match expanded with
    | [] => none
    | t :: rest =>
      (rs_nbt_parse_string rest).bind fun q =>
        (rs_nbt_parse_tag t q.2.1).bind fun p =>
          if p.2.1 ≠ [] then none
          else some ⟨t, q.1, p.1⟩

/-- Plain-pair view of `rs_nbt_parse_tag` (tag produced, bytes remaining). -/
def parseTagR (type : Nat) (d : Bytes) : Option (RSTag × Bytes) :=
  (rs_nbt_parse_tag type d).map fun p => (p.1, p.2.1)

/-- Plain-pair view of `rs_nbt_parse_string` (string read, bytes remaining). -/
def parseStringR (d : Bytes) : Option (Bytes × Bytes) :=
  (rs_nbt_parse_string d).map fun q => (q.1, q.2.1)

/-- Plain-pair view of `rs_nbt_parse_compound`. -/
def parseCompoundR (acc : List (Bytes × RSTag)) (d : Bytes) :
    Option (RSTag × Bytes) :=
  (rs_nbt_parse_compound acc d).map fun p => (p.1, p.2.1)

/-- The raw entry sequence of a Compound payload: the same loop as
`rs_nbt_parse_compound`, but recording every `(key, tag)` pair in wire order
instead of folding it into the compound with `rs_tag_compound_set`.  Used to
state how duplicate wire keys are resolved. -/
def rs_nbt_parse_compound_raw (d : Bytes) :
    Option (List (Bytes × RSTag) × Bytes) :=
  match d with
  | [] => none
  | subtype :: rest =>
    if subtype = 0 then
      some ([], rest)
    else
      (rs_nbt_parse_string rest).bind fun q =>
        (rs_nbt_parse_tag subtype q.2.1).bind fun p =>
          (rs_nbt_parse_compound_raw p.2.1).map fun w =>
            ((q.1, p.1) :: w.1, w.2)
termination_by d.length
decreasing_by
  have h1 := q.2.2
  have h2 := p.2.2
  simp only [List.length_cons]
  omega

/-- Folding a raw entry sequence into a compound with `rs_tag_compound_set`,
exactly as the parse loop does. -/
def applyEntries (acc : List (Bytes × RSTag)) (l : List (Bytes × RSTag)) :
    List (Bytes × RSTag) :=
  l.foldl (fun a e => rs_tag_compound_set a e.1 e.2) acc

/-- The value attached to the last occurrence of `k` in a raw entry
sequence (`none` if `k` does not occur). -/
def lastOccurrence (l : List (Bytes × RSTag)) (k : Bytes) : Option RSTag :=
  l.foldl (fun a e => if e.1 = k then some e.2 else a) none

/-- The compound entry lists reachable through the public mutation API,
starting from a fresh (empty) compound: `rs_tag_compound_set` and
`rs_tag_compound_delete`. -/
inductive CompoundReachable : List (Bytes × RSTag) → Prop
  | empty : CompoundReachable []
  | set : ∀ es k v, CompoundReachable es →
      CompoundReachable (rs_tag_compound_set es k v)
  | delete : ∀ es k, CompoundReachable es →
      CompoundReachable (rs_tag_compound_delete es k)

theorem compound_delete_sublist (es : List (Bytes × RSTag)) (k : Bytes) :
    List.Sublist (rs_tag_compound_delete es k) es := by
  induction es with
  | nil => simp [rs_tag_compound_delete]
  | cons e t ih =>
    simp only [rs_tag_compound_delete]
    split
    · exact List.sublist_cons_self e t
    · exact List.Sublist.cons₂ e ih

theorem compound_delete_keys_nodup (es : List (Bytes × RSTag)) (k : Bytes)
    (h : (es.map Prod.fst).Nodup) :
    ((rs_tag_compound_delete es k).map Prod.fst).Nodup :=
  h.sublist ((compound_delete_sublist es k).map Prod.fst)

theorem compound_delete_not_mem_keys (es : List (Bytes × RSTag)) (k : Bytes)
    (h : (es.map Prod.fst).Nodup) :
    k ∉ (rs_tag_compound_delete es k).map Prod.fst := by
  induction es with
  | nil => simp [rs_tag_compound_delete]
  | cons e t ih =>
    simp only [List.map_cons, List.nodup_cons] at h
    simp only [rs_tag_compound_delete]
    split
    · next heq => rw [← heq]; exact h.1
    · next hne =>
      simp only [List.map_cons, List.mem_cons]
      push_neg
      exact ⟨fun hh => hne hh.symm, ih h.2⟩

theorem compound_set_keys_nodup (es : List (Bytes × RSTag)) (k : Bytes)
    (v : RSTag) (h : (es.map Prod.fst).Nodup) :
    ((rs_tag_compound_set es k v).map Prod.fst).Nodup := by
  have h1 := compound_delete_keys_nodup es k h
  have h2 := compound_delete_not_mem_keys es k h
  simp [rs_tag_compound_set, List.nodup_append, h1, h2]

/-- C8: starting from the empty compound, every sequence of `set` and
`delete` operations preserves the key-uniqueness invariant: no two entries of
a reachable compound share a key (`set` guarantees this by deleting the
existing key before pushing the new entry). -/
theorem compound_ops_preserve_key_uniqueness (es : List (Bytes × RSTag))
    (h : CompoundReachable es) : (es.map Prod.fst).Nodup := by
  induction h with
  | empty => simp
  | set es k v _ ih => exact compound_set_keys_nodup es k v ih
  | delete es k _ ih => exact compound_delete_keys_nodup es k ih

theorem compound_ops_preserve_key_uniqueness_witness :
    (((rs_tag_compound_set (rs_tag_compound_set [] [97] (.tagByte 1))
        [97] (.tagByte 2)).map Prod.fst).Nodup) :=
  compound_ops_preserve_key_uniqueness _
    (CompoundReachable.set _ [97] (.tagByte 2)
      (CompoundReachable.set _ [97] (.tagByte 1) CompoundReachable.empty))

/-- C9: deleting a key that no entry of the compound carries leaves the entry
sequence unchanged (contents and order), with no error path. -/
theorem compound_delete_absent_key_identity (es : List (Bytes × RSTag))
    (k : Bytes) (h : ∀ e ∈ es, e.1 ≠ k) :
    rs_tag_compound_delete es k = es := by
  induction es with
  | nil => simp [rs_tag_compound_delete]
  | cons e t ih =>
    simp only [rs_tag_compound_delete]
    rw [if_neg (h e (by simp)), ih (fun x hx => h x (by simp [hx]))]

theorem compound_delete_absent_key_identity_witness :
    rs_tag_compound_delete [([97], RSTag.tagByte 1), ([98], RSTag.tagByte 2)]
        [99]
      = [([97], RSTag.tagByte 1), ([98], RSTag.tagByte 2)] :=
  compound_delete_absent_key_identity _ [99] (by decide)

/-- C1: `rs_tag_compound_set` deletes any existing entry with the key and
appends the new entry at the end, so inserting keys `a`, `b`, `c` in that
order and then setting `b` again yields iteration order `[a, c, b]`. -/
theorem compound_set_replace_moves_to_end (a b c : Bytes) (va vb vc v2 : RSTag)
    (hab : a ≠ b) (hac : a ≠ c) (hbc : b ≠ c) :
    ((rs_tag_compound_set (rs_tag_compound_set (rs_tag_compound_set
        (rs_tag_compound_set [] a va) b vb) c vc) b v2).map Prod.fst)
      = [a, c, b] := by
  simp [rs_tag_compound_set, rs_tag_compound_delete, hab, hac, hbc]

theorem compound_set_replace_moves_to_end_witness :
    ((rs_tag_compound_set (rs_tag_compound_set (rs_tag_compound_set
        (rs_tag_compound_set [] [97] (.tagByte 1)) [98] (.tagByte 2))
        [99] (.tagByte 3)) [98] (.tagByte 9)).map Prod.fst)
      = [[97], [99], [98]] :=
  compound_set_replace_moves_to_end [97] [98] [99] _ _ _ _
    (by decide) (by decide) (by decide)

theorem truncSigned_64_eq (v : Int) (h1 : -(2 ^ 63) ≤ v) (h2 : v < 2 ^ 63) :
    truncSigned 64 v = v := by
  simp only [truncSigned]
  norm_num
  omega

/-- C7: for each integer kind, `rs_tag_set_integer` stores the 64-bit value
truncated to the kind's width and `rs_tag_get_integer` returns it
sign-extended back: the composite is `truncSigned` at the declared width — in
particular the sign extension of the low 8 bits for a Byte tag, and the exact
value for a Long tag. -/
theorem integer_set_get_truncates (w v : Int)
    (h1 : -(2 ^ 63) ≤ v) (h2 : v < 2 ^ 63) :
    rs_tag_get_integer (rs_tag_set_integer (.tagByte w) v)
        = some (truncSigned 8 v)
    ∧ rs_tag_get_integer (rs_tag_set_integer (.tagShort w) v)
        = some (truncSigned 16 v)
    ∧ rs_tag_get_integer (rs_tag_set_integer (.tagInt w) v)
        = some (truncSigned 32 v)
    ∧ rs_tag_get_integer (rs_tag_set_integer (.tagLong w) v) = some v := by
  refine ⟨rfl, rfl, rfl, ?_⟩
  simp [rs_tag_set_integer, rs_tag_get_integer, truncSigned_64_eq v h1 h2]

theorem integer_set_get_truncates_witness :
    rs_tag_get_integer (rs_tag_set_integer (.tagByte 7) 300) = some 44
    ∧ rs_tag_get_integer (rs_tag_set_integer (.tagShort 7) 300) = some 300
    ∧ rs_tag_get_integer (rs_tag_set_integer (.tagInt 7) 300) = some 300
    ∧ rs_tag_get_integer (rs_tag_set_integer (.tagLong 7) 300) = some 300 := by
  have h := integer_set_get_truncates 7 300 (by norm_num) (by norm_num)
  norm_num [truncSigned] at h
  exact h

/-- C2 (code bug in the source): a String tag whose length prefix or payload
does not fit is NOT rejected by `_rs_nbt_parse_tag` — the source never checks
`_rs_nbt_parse_string` for failure in the `RS_TAG_STRING` case and returns
the tag anyway, with a NULL string payload and an unadvanced cursor.  First
conjunct: type byte 8 with remaining bytes `[0, 5]` (declared length 5, no
payload) yields a tag, not a failure.  Second conjunct: the whole-document
bytes `08 00 01 61` (String root, name "a", root payload entirely missing)
parse successfully to a Document whose root is a String tag with NULL
content. -/
theorem parse_string_tag_truncated_returns_tag :
    parseTagR 8 [0, 5] = some (.tagString none, [0, 5])
    ∧ rs_nbt_parse [8, 0, 1, 97] = some ⟨8, [97], .tagString none⟩ := by
  constructor
  · simp [parseTagR, rs_nbt_parse_tag, rs_nbt_parse_string, rs_endian_uint16,
      rs_tag_set_string, rs_strdup]
  · simp [rs_nbt_parse, rs_nbt_parse_string, rs_nbt_parse_tag,
      rs_endian_uint16, rs_tag_set_string, rs_strdup, cstr]

/-- C6: every type byte outside the implemented set
{Byte = 1, Short = 2, Int = 3, Long = 4, String = 8, Compound = 10} —
including End (0) met as a tag's own type — makes `_rs_nbt_parse_tag` fail at
once, whatever the cursor holds (the C switch falls through to the failure
return). -/
theorem parse_tag_unsupported_type_fails (t : Nat)
    (ht : t ∉ ([1, 2, 3, 4, 8, 10] : List Nat)) (d : Bytes) :
    rs_nbt_parse_tag t d = none := by
  simp only [List.mem_cons, List.not_mem_nil, or_false] at ht
  push_neg at ht
  obtain ⟨h1, h2, h3, h4, h8, h10⟩ := ht
  rw [rs_nbt_parse_tag.eq_def]
  simp [h1, h2, h3, h4, h8, h10]

theorem parse_tag_unsupported_type_fails_witness :
    rs_nbt_parse_tag 0 [0, 0, 0] = none :=
  parse_tag_unsupported_type_fails 0 (by decide) [0, 0, 0]

/-- C5: the 4-byte input `0A 00 00 00` (Compound type byte, zero-length name,
immediate End byte) parses to a Document with empty root name and an empty
Compound root; and any decompressed input shorter than 4 bytes fails the
parse. -/
theorem parse_minimal_compound_document :
    rs_nbt_parse [10, 0, 0, 0] = some ⟨10, [], .tagCompound []⟩
    ∧ ∀ d : Bytes, d.length < 4 → rs_nbt_parse d = none := by
  constructor
  · simp [rs_nbt_parse, rs_nbt_parse_string, rs_nbt_parse_tag,
      rs_nbt_parse_compound, rs_endian_uint16, cstr]
  · intro d hd
    simp [rs_nbt_parse, hd]

theorem parse_minimal_compound_document_witness :
    rs_nbt_parse [10, 0] = none :=
  parse_minimal_compound_document.2 [10, 0] (by decide)

/-- C4: once the root name has been read and the root tag parse has
succeeded, the document parse fails whenever unconsumed bytes remain
(`left != 0`), and succeeds — producing the Document — exactly when zero
bytes remain (given the 4-byte minimum the entry point also enforces). -/
theorem parse_document_strict_trailing_data (d : Bytes) (t : Nat)
    (rest name r1 : Bytes) (root : RSTag) (r2 : Bytes)
    (hd : d = t :: rest)
    (hn : parseStringR rest = some (name, r1))
    (hr : parseTagR t r1 = some (root, r2)) :
    (r2 ≠ [] → rs_nbt_parse d = none)
    ∧ (4 ≤ d.length → r2 = [] → rs_nbt_parse d = some ⟨t, name, root⟩) := by
  subst hd
  simp only [parseStringR, Option.map_eq_some'] at hn
  obtain ⟨q, hq, hpair⟩ := hn
  rw [Prod.ext_iff] at hpair
  simp only at hpair
  obtain ⟨hqn, hqr1⟩ := hpair
  simp only [parseTagR, Option.map_eq_some'] at hr
  obtain ⟨p, hp, hpair2⟩ := hr
  rw [Prod.ext_iff] at hpair2
  simp only at hpair2
  obtain ⟨hpt, hpr2⟩ := hpair2
  constructor
  · intro hne
    by_cases hl : (t :: rest).length < 4
    · rw [rs_nbt_parse, if_pos hl]
    · rw [rs_nbt_parse, if_neg hl]
      simp only [hq, Option.some_bind']
      rw [hqr1, hp]
      simp [hpr2, hne]
  · intro hlen hnil
    have hl : ¬((t :: rest).length < 4) := by omega
    rw [rs_nbt_parse, if_neg hl]
    simp only [hq, Option.some_bind']
    rw [hqr1, hp]
    simp [hpr2, hnil, hqn, hpt]

theorem parse_document_strict_trailing_data_witness :
    rs_nbt_parse [1, 0, 0, 1, 99] = none :=
  (parse_document_strict_trailing_data [1, 0, 0, 1, 99] 1 [0, 0, 1, 99]
      [] [1, 99] (.tagByte 1) [99] rfl
      (by norm_num [parseStringR, rs_nbt_parse_string, rs_endian_uint16, cstr])
      (by norm_num [parseTagR, rs_nbt_parse_tag, rs_tag_set_integer,
        truncSigned])).1
    (by decide)

theorem parse_string_suffix (d s r : Bytes) (h : parseStringR d = some (s, r)) :
    List.IsSuffix r d := by
  rcases d with _ | ⟨b0, d1⟩
  · simp [parseStringR, rs_nbt_parse_string] at h
  rcases d1 with _ | ⟨b1, rest⟩
  · simp [parseStringR, rs_nbt_parse_string] at h
  simp only [parseStringR, rs_nbt_parse_string] at h
  split_ifs at h with hlt
  · simp at h
  · simp only [Option.map_some', Option.some.injEq, Prod.mk.injEq] at h
    obtain ⟨hs, hr⟩ := h
    exact ⟨b0 :: b1 :: rest.take (rs_endian_uint16 b0 b1), by
      simp [← hr, List.take_append_drop]⟩

theorem cloop_nil_eq (acc : List (Bytes × RSTag)) :
    rs_nbt_parse_compound acc [] = none := by
  rw [rs_nbt_parse_compound.eq_def]

theorem cloop_cons_eq (acc : List (Bytes × RSTag)) (b : Nat) (rest : Bytes) :
    rs_nbt_parse_compound acc (b :: rest) =
      if b = 0 then
        some (.tagCompound acc, ⟨rest, by simp⟩)
      else
        (rs_nbt_parse_string rest).bind fun q =>
          (rs_nbt_parse_tag b q.2.1).bind fun p =>
            (rs_nbt_parse_compound (rs_tag_compound_set acc q.1 p.1) p.2.1).map
              fun w =>
                (w.1, ⟨w.2.1, by
                  have h1 := q.2.2
                  have h2 := p.2.2
                  have h3 := w.2.2
                  simp only [List.length_cons]
                  omega⟩) := by
  rw [rs_nbt_parse_compound.eq_def]

theorem parse_suffix_aux (n : Nat) : ∀ d : Bytes, d.length ≤ n →
    (∀ acc tag r, parseCompoundR acc d = some (tag, r) →
        List.IsSuffix (0 :: r) d)
    ∧ (∀ t tag r, parseTagR t d = some (tag, r) → List.IsSuffix r d) := by
  induction n with
  | zero =>
    intro d hd
    have hdn : d = [] := List.length_eq_zero.mp (Nat.le_zero.mp hd)
    subst hdn
    constructor
    · intro acc tag r h
      simp [parseCompoundR, cloop_nil_eq] at h
    · intro t tag r h
      simp only [parseTagR, Option.map_eq_some'] at h
      obtain ⟨p, hp, hpe⟩ := h
      have hnil : p.2.1 = [] := List.length_eq_zero.mp (Nat.le_zero.mp p.2.2)
      rw [Prod.ext_iff] at hpe
      simp only at hpe
      rw [← hpe.2, hnil]
  | succ n ih =>
    intro d hd
    have hcl : ∀ acc tag r, parseCompoundR acc d = some (tag, r) →
        List.IsSuffix (0 :: r) d := by
      intro acc tag r h
      rcases d with _ | ⟨b, rest⟩
      · simp [parseCompoundR, cloop_nil_eq] at h
      simp only [List.length_cons] at hd
      simp only [parseCompoundR, cloop_cons_eq] at h
      by_cases hb : b = 0
      · subst hb
        simp at h
        obtain ⟨-, hr⟩ := h
        rw [← hr]
      · rw [if_neg hb] at h
        rcases hq : rs_nbt_parse_string rest with _ | q
        · rw [hq] at h; simp at h
        rw [hq, Option.some_bind'] at h
        rcases hp : rs_nbt_parse_tag b q.2.1 with _ | p
        · rw [hp] at h; simp at h
        rw [hp, Option.some_bind'] at h
        rcases hw : rs_nbt_parse_compound
            (rs_tag_compound_set acc q.1 p.1) p.2.1 with _ | w
        · rw [hw] at h; simp at h
        rw [hw] at h
        simp at h
        obtain ⟨-, hr⟩ := h
        have hq2 := q.2.2
        have hp2 := p.2.2
        have hcw : parseCompoundR (rs_tag_compound_set acc q.1 p.1) p.2.1
            = some (w.1, w.2.1) := by
          rw [parseCompoundR, hw]
          rfl
        have hsuf1 : List.IsSuffix (0 :: w.2.1) p.2.1 :=
          (ih p.2.1 (by omega)).1 _ w.1 w.2.1 hcw
        have htag2 : parseTagR b q.2.1 = some (p.1, p.2.1) := by
          rw [parseTagR, hp]
          rfl
        have hsuf2 : List.IsSuffix p.2.1 q.2.1 :=
          (ih q.2.1 (by omega)).2 b p.1 p.2.1 htag2
        have hstr : parseStringR rest = some (q.1, q.2.1) := by
          rw [parseStringR, hq]
          rfl
        have hsuf3 : List.IsSuffix q.2.1 rest :=
          parse_string_suffix rest q.1 q.2.1 hstr
        have hsuf4 : List.IsSuffix rest (b :: rest) := ⟨[b], rfl⟩
        rw [← hr]
        exact ((hsuf1.trans hsuf2).trans hsuf3).trans hsuf4
    refine ⟨hcl, ?_⟩
    intro t tag r h
    simp only [parseTagR] at h
    rw [rs_nbt_parse_tag.eq_def] at h
    split_ifs at h with h1 h2 h3 h4 h8 h10
    · rcases d with _ | ⟨b0, rest⟩
      · simp at h
      · simp at h
        obtain ⟨-, hr⟩ := h
        rw [← hr]
        exact ⟨[b0], rfl⟩
    · rcases d with _ | ⟨b0, _ | ⟨b1, rest⟩⟩
      · simp at h
      · simp at h
      · simp at h
        obtain ⟨-, hr⟩ := h
        rw [← hr]
        exact ⟨[b0, b1], rfl⟩
    · rcases d with _ | ⟨b0, _ | ⟨b1, _ | ⟨b2, _ | ⟨b3, rest⟩⟩⟩⟩
      · simp at h
      · simp at h
      · simp at h
      · simp at h
      · simp at h
        obtain ⟨-, hr⟩ := h
        rw [← hr]
        exact ⟨[b0, b1, b2, b3], rfl⟩
    · rcases d with
        _ | ⟨b0, _ | ⟨b1, _ | ⟨b2, _ | ⟨b3, _ | ⟨b4, _ | ⟨b5, _ | ⟨b6, _ | ⟨b7, rest⟩⟩⟩⟩⟩⟩⟩⟩
      · simp at h
      · simp at h
      · simp at h
      · simp at h
      · simp at h
      · simp at h
      · simp at h
      · simp at h
      · simp at h
        obtain ⟨-, hr⟩ := h
        rw [← hr]
        exact ⟨[b0, b1, b2, b3, b4, b5, b6, b7], rfl⟩
    · rcases hq : rs_nbt_parse_string d with _ | q
      · rw [hq] at h
        simp at h
        obtain ⟨-, hr⟩ := h
        rw [← hr]
      · rw [hq] at h
        simp at h
        obtain ⟨-, hr⟩ := h
        rw [← hr]
        exact parse_string_suffix d q.1 q.2.1 (by rw [parseStringR, hq]; rfl)
    · have hc : parseCompoundR [] d = some (tag, r) := by
        rw [parseCompoundR]; exact h
      obtain ⟨c, hc2⟩ := hcl [] tag r hc
      exact ⟨c ++ [0], by rw [← hc2]; simp⟩
    · simp at h

theorem parse_tag_compound_eq (d : Bytes) :
    rs_nbt_parse_tag 10 d = rs_nbt_parse_compound [] d := by
  rw [rs_nbt_parse_tag.eq_def]
  norm_num

/-- C3: a successful Compound-payload parse always ends by consuming an End
byte (0x00): the input splits as a consumed prefix ending in the End byte,
followed by the returned remainder.  Contrapositively, a buffer that is
exhausted before an End type byte is seen can never yield a compound — the
loop falls through to the failure return instead of silently closing the
compound built so far. -/
theorem parse_compound_requires_end_byte (d : Bytes) (tag : RSTag) (r : Bytes)
    (h : parseTagR 10 d = some (tag, r)) : List.IsSuffix (0 :: r) d := by
  have hc : parseCompoundR [] d = some (tag, r) := by
    rw [parseCompoundR, ← parse_tag_compound_eq]
    exact h
  exact (parse_suffix_aux d.length d le_rfl).1 [] tag r hc

theorem parse_compound_requires_end_byte_witness :
    List.IsSuffix (0 :: ([] : Bytes)) [0] :=
  parse_compound_requires_end_byte [0] (.tagCompound []) []
    (by simp [parseTagR, rs_nbt_parse_tag, rs_nbt_parse_compound])

theorem raw_cons_eq (b : Nat) (rest : Bytes) :
    rs_nbt_parse_compound_raw (b :: rest) =
      if b = 0 then
        some ([], rest)
      else
        (rs_nbt_parse_string rest).bind fun q =>
          (rs_nbt_parse_tag b q.2.1).bind fun p =>
            (rs_nbt_parse_compound_raw p.2.1).map fun w =>
              ((q.1, p.1) :: w.1, w.2) := by
  rw [rs_nbt_parse_compound_raw.eq_def]

theorem compound_get_append (l1 l2 : List (Bytes × RSTag)) (k : Bytes) :
    rs_tag_compound_get (l1 ++ l2) k
      = match rs_tag_compound_get l1 k with
        | some v => some v
        | none => rs_tag_compound_get l2 k := by
  induction l1 with
  | nil => simp [rs_tag_compound_get]
  | cons e t ih =>
    simp only [List.cons_append, rs_tag_compound_get]
    by_cases he : e.1 = k
    · simp [he]
    · simp [he, ih]

theorem compound_get_none_of_not_mem (l : List (Bytes × RSTag)) (k : Bytes)
    (h : k ∉ l.map Prod.fst) : rs_tag_compound_get l k = none := by
  induction l with
  | nil => simp [rs_tag_compound_get]
  | cons e t ih =>
    simp only [List.map_cons, List.mem_cons] at h
    push_neg at h
    simp only [rs_tag_compound_get]
    rw [if_neg (fun hh => h.1 hh.symm)]
    exact ih h.2

theorem compound_mem_of_get_some (l : List (Bytes × RSTag)) (k : Bytes)
    (v : RSTag) (h : rs_tag_compound_get l k = some v) :
    k ∈ l.map Prod.fst := by
  induction l with
  | nil => simp [rs_tag_compound_get] at h
  | cons e t ih =>
    simp only [rs_tag_compound_get] at h
    by_cases he : e.1 = k
    · exact List.mem_cons.mpr (Or.inl he.symm)
    · rw [if_neg he] at h
      exact List.mem_cons.mpr (Or.inr (ih h))

theorem compound_get_delete_ne (es : List (Bytes × RSTag)) (k k' : Bytes)
    (h : k' ≠ k) :
    rs_tag_compound_get (rs_tag_compound_delete es k) k'
      = rs_tag_compound_get es k' := by
  induction es with
  | nil => simp [rs_tag_compound_delete]
  | cons e t ih =>
    simp only [rs_tag_compound_delete]
    by_cases he : e.1 = k
    · rw [if_pos he]
      simp only [rs_tag_compound_get]
      rw [if_neg (by rw [he]; exact fun hh => h hh.symm)]
    · rw [if_neg he]
      simp only [rs_tag_compound_get]
      by_cases he' : e.1 = k'
      · simp [he']
      · simp [he', ih]

theorem compound_get_set_self (es : List (Bytes × RSTag)) (k : Bytes)
    (v : RSTag) (hnd : (es.map Prod.fst).Nodup) :
    rs_tag_compound_get (rs_tag_compound_set es k v) k = some v := by
  rw [rs_tag_compound_set, compound_get_append]
  rw [compound_get_none_of_not_mem _ _ (compound_delete_not_mem_keys es k hnd)]
  simp [rs_tag_compound_get]

theorem compound_get_set_ne (es : List (Bytes × RSTag)) (k : Bytes) (v : RSTag)
    (k' : Bytes) (h : k' ≠ k) :
    rs_tag_compound_get (rs_tag_compound_set es k v) k'
      = rs_tag_compound_get es k' := by
  rw [rs_tag_compound_set, compound_get_append, compound_get_delete_ne es k k' h]
  cases hg : rs_tag_compound_get es k' with
  | some w => rfl
  | none => simp [rs_tag_compound_get, Ne.symm h]

theorem lastOccurrence_foldl_init (l : List (Bytes × RSTag)) (k : Bytes) :
    ∀ a : Option RSTag,
      l.foldl (fun a e => if e.1 = k then some e.2 else a) a
        = match lastOccurrence l k with
          | some v => some v
          | none => a := by
  induction l with
  | nil => intro a; simp [lastOccurrence]
  | cons e t ih =>
    intro a
    simp only [lastOccurrence, List.foldl_cons]
    rw [ih, ih]
    cases hlt : t.foldl (fun a e => if e.1 = k then some e.2 else a) none with
    | some v => simp [lastOccurrence, hlt]
    | none =>
      by_cases he : e.1 = k
      · simp [lastOccurrence, hlt, he]
      · simp [lastOccurrence, hlt, he]

theorem lastOccurrence_cons (e : Bytes × RSTag) (t : List (Bytes × RSTag))
    (k : Bytes) :
    lastOccurrence (e :: t) k
      = match lastOccurrence t k with
        | some v => some v
        | none => if e.1 = k then some e.2 else none := by
  simp only [lastOccurrence, List.foldl_cons]
  rw [lastOccurrence_foldl_init]
  rfl

theorem lastOccurrence_isSome_of_mem (l : List (Bytes × RSTag)) (k : Bytes)
    (h : k ∈ l.map Prod.fst) : ∃ v, lastOccurrence l k = some v := by
  induction l with
  | nil => simp at h
  | cons e t ih =>
    simp only [List.map_cons, List.mem_cons] at h
    rw [lastOccurrence_cons]
    cases hlt : lastOccurrence t k with
    | some v => exact ⟨v, rfl⟩
    | none =>
      rcases h with h | h
      · refine ⟨e.2, ?_⟩
        simp only []
        rw [if_pos h.symm]
      · obtain ⟨v, hv⟩ := ih h
        rw [hv] at hlt
        exact absurd hlt (by simp)

theorem applyEntries_keys_nodup (l : List (Bytes × RSTag)) :
    ∀ acc, ((acc.map Prod.fst).Nodup) →
      (((applyEntries acc l).map Prod.fst).Nodup) := by
  induction l with
  | nil => intro acc h; simpa [applyEntries] using h
  | cons e t ih =>
    intro acc h
    have hstep : applyEntries acc (e :: t)
        = applyEntries (rs_tag_compound_set acc e.1 e.2) t := by
      simp [applyEntries]
    rw [hstep]
    exact ih (rs_tag_compound_set acc e.1 e.2)
      (compound_set_keys_nodup acc e.1 e.2 h)

theorem compound_get_applyEntries (l : List (Bytes × RSTag)) :
    ∀ acc, ((acc.map Prod.fst).Nodup) → ∀ k,
      rs_tag_compound_get (applyEntries acc l) k
        = match lastOccurrence l k with
          | some v => some v
          | none => rs_tag_compound_get acc k := by
  induction l with
  | nil => intro acc h k; simp [applyEntries, lastOccurrence]
  | cons e t ih =>
    intro acc h k
    have hstep : applyEntries acc (e :: t)
        = applyEntries (rs_tag_compound_set acc e.1 e.2) t := by
      simp [applyEntries]
    rw [hstep, ih _ (compound_set_keys_nodup acc e.1 e.2 h) k,
      lastOccurrence_cons]
    cases hlt : lastOccurrence t k with
    | some v => rfl
    | none =>
      simp only []
      by_cases he : e.1 = k
      · rw [if_pos he, ← he]
        exact compound_get_set_self acc e.1 e.2 h
      · rw [if_neg he]
        exact compound_get_set_ne acc e.1 e.2 k (fun hh => he hh.symm)

theorem cloop_raw_rel (n : Nat) : ∀ d : Bytes, d.length ≤ n →
    ∀ acc tag r, parseCompoundR acc d = some (tag, r) →
      ∃ l, rs_nbt_parse_compound_raw d = some (l, r)
        ∧ tag = .tagCompound (applyEntries acc l) := by
  induction n with
  | zero =>
    intro d hd acc tag r h
    have hdn : d = [] := List.length_eq_zero.mp (Nat.le_zero.mp hd)
    subst hdn
    simp [parseCompoundR, cloop_nil_eq] at h
  | succ n ih =>
    intro d hd acc tag r h
    rcases d with _ | ⟨b, rest⟩
    · simp [parseCompoundR, cloop_nil_eq] at h
    simp only [List.length_cons] at hd
    simp only [parseCompoundR, cloop_cons_eq] at h
    by_cases hb : b = 0
    · subst hb
      simp at h
      obtain ⟨htag, hr⟩ := h
      refine ⟨[], ?_, ?_⟩
      · rw [raw_cons_eq, if_pos rfl, hr]
      · rw [← htag]
        simp [applyEntries]
    · rw [if_neg hb] at h
      rcases hq : rs_nbt_parse_string rest with _ | q
      · rw [hq] at h; simp at h
      rw [hq, Option.some_bind'] at h
      rcases hp : rs_nbt_parse_tag b q.2.1 with _ | p
      · rw [hp] at h; simp at h
      rw [hp, Option.some_bind'] at h
      rcases hw : rs_nbt_parse_compound
          (rs_tag_compound_set acc q.1 p.1) p.2.1 with _ | w
      · rw [hw] at h; simp at h
      rw [hw] at h
      simp at h
      obtain ⟨htag, hr⟩ := h
      have hq2 := q.2.2
      have hp2 := p.2.2
      have hcw : parseCompoundR (rs_tag_compound_set acc q.1 p.1) p.2.1
          = some (w.1, w.2.1) := by
        rw [parseCompoundR, hw]
        rfl
      obtain ⟨l', hraw', htag'⟩ :=
        ih p.2.1 (by omega) (rs_tag_compound_set acc q.1 p.1) w.1 w.2.1 hcw
      refine ⟨(q.1, p.1) :: l', ?_, ?_⟩
      · rw [raw_cons_eq, if_neg hb, hq, Option.some_bind', hp,
          Option.some_bind', hraw']
        simp [hr]
      · rw [← htag, htag']
        simp [applyEntries]

theorem filter_eq_nil_of_not_mem (t : List Bytes) (k : Bytes) (h : k ∉ t) :
    t.filter (fun x => x = k) = [] := by
  induction t with
  | nil => rfl
  | cons e s ih =>
    simp only [List.mem_cons] at h
    push_neg at h
    simp [List.filter_cons, Ne.symm h.1, ih h.2]

theorem mem_of_filter_length_pos (t : List Bytes) (k : Bytes)
    (h : 0 < (t.filter (fun x => x = k)).length) : k ∈ t := by
  induction t with
  | nil => simp at h
  | cons e s ih =>
    by_cases he : e = k
    · exact List.mem_cons.mpr (Or.inl he.symm)
    · simp [List.filter_cons, he] at h
      exact List.mem_cons.mpr (Or.inr (ih h))

theorem length_filter_eq_one_of_nodup (l : List Bytes) (k : Bytes)
    (hnd : l.Nodup) (hm : k ∈ l) :
    (l.filter (fun x => x = k)).length = 1 := by
  induction l with
  | nil => simp at hm
  | cons e t ih =>
    simp only [List.nodup_cons] at hnd
    rcases List.mem_cons.mp hm with h | h
    · subst h
      simp [List.filter_cons, filter_eq_nil_of_not_mem t k hnd.1]
    · have hek : ¬(e = k) := fun hh => hnd.1 (hh ▸ h)
      simp [List.filter_cons, hek, ih hnd.2 h]

/-- C10: when a Compound payload parses successfully and some key occurs in
more than one wire entry (the raw entry sequence `rs_nbt_parse_compound_raw`),
the resulting compound holds exactly one entry for that key and its value is
the tag decoded from the last occurrence in the byte stream — each
`rs_tag_compound_set` in the parse loop replaces the earlier entry. -/
theorem parse_compound_duplicate_key_last_wins (d : Bytes) (tag : RSTag)
    (r : Bytes) (h : parseTagR 10 d = some (tag, r)) :
    ∃ es l, tag = .tagCompound es
      ∧ rs_nbt_parse_compound_raw d = some (l, r)
      ∧ ∀ k, 2 ≤ ((l.map Prod.fst).filter (fun x => x = k)).length →
          (((es.map Prod.fst).filter (fun x => x = k)).length = 1
            ∧ rs_tag_compound_get es k = lastOccurrence l k) := by
  have hc : parseCompoundR [] d = some (tag, r) := by
    rw [parseCompoundR, ← parse_tag_compound_eq]
    exact h
  obtain ⟨l, hraw, htag⟩ := cloop_raw_rel d.length d le_rfl [] tag r hc
  refine ⟨applyEntries [] l, l, htag, hraw, ?_⟩
  intro k hk
  have hmem : k ∈ l.map Prod.fst :=
    mem_of_filter_length_pos (l.map Prod.fst) k (by omega)
  obtain ⟨v, hv⟩ := lastOccurrence_isSome_of_mem l k hmem
  have hget : rs_tag_compound_get (applyEntries [] l) k = some v := by
    rw [compound_get_applyEntries l [] (by simp) k, hv]
  have hnd : ((applyEntries [] l).map Prod.fst).Nodup :=
    applyEntries_keys_nodup l [] (by simp)
  have hmem2 : k ∈ (applyEntries [] l).map Prod.fst :=
    compound_mem_of_get_some _ _ _ hget
  refine ⟨length_filter_eq_one_of_nodup _ _ hnd hmem2, ?_⟩
  rw [hget, hv]

theorem parse_compound_duplicate_key_last_wins_witness :
    ∃ es l, RSTag.tagCompound [([97], RSTag.tagByte 7)] = RSTag.tagCompound es
      ∧ rs_nbt_parse_compound_raw [1, 0, 1, 97, 5, 1, 0, 1, 97, 7, 0]
          = some (l, [])
      ∧ ∀ k, 2 ≤ ((l.map Prod.fst).filter (fun x => x = k)).length →
          (((es.map Prod.fst).filter (fun x => x = k)).length = 1
            ∧ rs_tag_compound_get es k = lastOccurrence l k) :=
  parse_compound_duplicate_key_last_wins [1, 0, 1, 97, 5, 1, 0, 1, 97, 7, 0]
    (.tagCompound [([97], .tagByte 7)]) [] (by
      rw [parseTagR, parse_tag_compound_eq, cloop_cons_eq]
      norm_num [rs_nbt_parse_string, rs_endian_uint16, cstr]
      rw [rs_nbt_parse_tag.eq_def]
      norm_num [rs_tag_set_integer, truncSigned]
      rw [cloop_cons_eq]
      norm_num [rs_nbt_parse_string, rs_endian_uint16, cstr,
        rs_tag_compound_set, rs_tag_compound_delete]
      rw [rs_nbt_parse_tag.eq_def]
      norm_num [rs_tag_set_integer, truncSigned]
      rw [cloop_cons_eq]
      norm_num [rs_tag_compound_set, rs_tag_compound_delete])
